import Mathlib

/-!
Shallow embedding of the `codeforce-traps` trap-damage solver (`src/main.rs`)
and proofs of the specification's claims about it.

The Rust program models one combinatorial puzzle: given `n` non-negative trap
damages and a budget `k`, choose `k` positions to skip; skipping removes that
position's damage but adds one permanent unit of "bonus" damage to every later
unskipped position.  The core pieces embedded here:

* `TrapsPuzzle`            — the puzzle value (`base_dmgs : Vec<usize>`, `k : usize`);
* `dmg_from_skip_inds`     — the damage evaluator (one left-to-right pass);
* `score` / `scoredPairs`  — the greedy scoring, with the `as i32` casts of the
  source modelled by wrapping into `[-2^31, 2^31)`;
* `popMax` / `extractTopK` — the max-oriented priority extraction (Rust uses a
  `BinaryHeap` whose `Ord` compares scores only; tie order among equal scores is
  unspecified in Rust, so here a concrete tie-break — earliest pushed maximal
  element — is used, and tie-break independence of the result is proved);
* `naive_solve`            — the greedy solver; the `pop().unwrap()` that can
  panic when `k > n` is modelled by `Option`, `none` standing for the panic;
* `brute_force_solve`      — the exhaustive oracle from the test module: minimum
  of the evaluator over all size-`k` subsets of `{0..n}`; the `.min().unwrap()`
  on an empty iterator is modelled by `WithTop` (`⊤` standing for the panic).
-/

namespace CodeforceTraps

/-- Rust `struct TrapsPuzzle { base_dmgs: Vec<usize>, k: usize }`. -/
structure TrapsPuzzle where
  base_dmgs : List Nat
  k : Nat

/-- Rust `TrapsPuzzle::dmg_from_skip_inds`: scan `i = 0..n` keeping
`(total_dmg, bonus_dmg)`; a skipped index bumps the bonus, any other index adds
`base_dmgs[i] + bonus_dmg` to the total. -/
def dmg_from_skip_inds (p : TrapsPuzzle) (skip_inds : Finset Nat) : Nat :=
  ((List.range p.base_dmgs.length).foldl
    (fun acc i =>
      if i ∈ skip_inds then (acc.1, acc.2 + 1)
      else (acc.1 + (p.base_dmgs.getD i 0 + acc.2), acc.2))
    ((0, 0) : Nat × Nat)).1

/-- Wrap an integer into the `i32` range `[-2^31, 2^31)` (two's complement). -/
def wrap32 (z : Int) : Int := (z + 2 ^ 31) % 2 ^ 32 - 2 ^ 31

/-- Rust `x as i32` applied to a `usize` value: wraps modulo `2^32`. -/
def usize_as_i32 (x : Nat) : Int := wrap32 x

/-- Rust release-mode `i32` subtraction (wraps on overflow). -/
def i32_sub (a b : Int) : Int := wrap32 (a - b)

/-- The score the greedy solver computes at line 47 of `main.rs`:
`(base_dmgs[i] as i32) - (base_dmgs.len() - i - 1) as i32`, in `i32`
arithmetic. -/
def score (p : TrapsPuzzle) (i : Nat) : Int :=
  i32_sub (usize_as_i32 (p.base_dmgs.getD i 0)) (usize_as_i32 (p.base_dmgs.length - i - 1))

/-- The `(score, index)` pairs pushed into the heap, in push order `i = 0..n`. -/
def scoredPairs (p : TrapsPuzzle) : List (Int × Nat) :=
  (List.range p.base_dmgs.length).map (fun i => (score p i, i))

/-- One `BinaryHeap::pop`: remove an element of maximal score (`Ord` on
`ScoreIndexPair` compares scores only).  Among equal scores the earliest
element is taken; Rust leaves this choice unspecified, and tie-break
independence of the final total is proved below. -/
def popMax : List (Int × Nat) → Option ((Int × Nat) × List (Int × Nat))
  | [] => none
  | x :: xs =>
    match popMax xs with
    | none => some (x, [])
    | some (m, rest) => if x.1 < m.1 then some (m, x :: rest) else some (x, xs)

/-- The `for _ in 0..k { skip_inds.insert(heap.pop().unwrap().1) }` loop:
pop `k` times collecting the indices; `none` models the `unwrap` panic on an
exhausted heap. -/
def extractTopK : Nat → List (Int × Nat) → Option (List Nat)
  | 0, _ => some []
  | n + 1, l =>
    match popMax l with
    | none => none
    | some (m, rest) => (extractTopK n rest).map (fun L => m.2 :: L)

/-- Rust `naive_solve`: push all `(score i, i)` pairs, pop the `k` best,
evaluate the resulting skip set. -/
def naive_solve (p : TrapsPuzzle) : Option Nat :=
  (extractTopK p.k (scoredPairs p)).map (fun L => dmg_from_skip_inds p L.toFinset)

/-- Rust `brute_force_solve` (test module): evaluate every size-`k` subset of
`0..n` and take the minimum; `⊥` models the `.min().unwrap()` panic when there
is no such subset. -/
def brute_force_solve (p : TrapsPuzzle) : WithTop Nat :=
  (((Finset.range p.base_dmgs.length).powersetCard p.k).image (dmg_from_skip_inds p)).min

/-- The spec's scoring rule, taken verbatim from §4.2:
`score(i) = damages[i] - (n - i - 1)`, exact integer arithmetic (the inner
subtraction is the count of positions strictly after `i`, a natural number). -/
def specScore (p : TrapsPuzzle) (i : Nat) : Int :=
  (p.base_dmgs.getD i 0 : Int) - ((p.base_dmgs.length - i - 1 : Nat) : Int)

/-- Modelled from the spec §4.2 procedure: the greedy pipeline run with the
spec's exact score instead of the code's wrapped `i32` score. -/
def specScoredPairs (p : TrapsPuzzle) : List (Int × Nat) :=
  (List.range p.base_dmgs.length).map (fun i => (specScore p i, i))

/-- Modelled from the spec §4.2: compute `specScore` for all positions, extract
the `k` largest via the same priority structure, evaluate the skip set. -/
def spec_greedy (p : TrapsPuzzle) : Option Nat :=
  (extractTopK p.k (specScoredPairs p)).map (fun L => dmg_from_skip_inds p L.toFinset)

/-- `T` is a set of `k` positions of `[0, n)` carrying the `k` largest values
of `f`: every chosen position scores at least as high as every unchosen one. -/
def IsTopK (f : Nat → Int) (n k : Nat) (T : Finset Nat) : Prop :=
  T ⊆ Finset.range n ∧ T.card = k ∧ ∀ i ∈ T, ∀ j ∈ Finset.range n \ T, f j ≤ f i

/-! ### Properties of `popMax` and `extractTopK` -/

theorem popMax_eq_none_iff (l : List (Int × Nat)) : popMax l = none ↔ l = [] := by
  cases l with
  | nil => simp [popMax]
  | cons x xs =>
    simp only [popMax]
    cases h : popMax xs with
    | none => simp
    | some p =>
      obtain ⟨m, rest⟩ := p
      by_cases hc : x.1 < m.1 <;> simp [hc]

theorem popMax_spec (l : List (Int × Nat)) (m : Int × Nat) (rest : List (Int × Nat))
    (h : popMax l = some (m, rest)) :
    l.Perm (m :: rest) ∧ ∀ x ∈ l, x.1 ≤ m.1 := by
  induction l generalizing m rest with
  | nil => simp [popMax] at h
  | cons x xs ih =>
    simp only [popMax] at h
    cases hx : popMax xs with
    | none =>
      rw [hx] at h
      have hxs : xs = [] := (popMax_eq_none_iff xs).mp hx
      subst hxs
      simp only [Option.some.injEq, Prod.mk.injEq] at h
      obtain ⟨hm, hrest⟩ := h
      subst hm; subst hrest
      exact ⟨List.Perm.refl _, by simp⟩
    | some q =>
      obtain ⟨m₁, rest₁⟩ := q
      rw [hx] at h
      obtain ⟨hperm₁, hmax₁⟩ := ih m₁ rest₁ hx
      by_cases hc : x.1 < m₁.1
      · simp only [hc, if_true, Option.some.injEq, Prod.mk.injEq] at h
        obtain ⟨hm, hrest⟩ := h
        subst hm; subst hrest
        constructor
        · exact (hperm₁.cons x).trans (List.Perm.swap _ _ _)
        · intro y hy
          rcases List.mem_cons.mp hy with hy | hy
          · subst hy; exact le_of_lt hc
          · exact hmax₁ y hy
      · simp only [hc, if_false, Option.some.injEq, Prod.mk.injEq] at h
        obtain ⟨hm, hrest⟩ := h
        subst hm; subst hrest
        constructor
        · exact List.Perm.refl _
        · intro y hy
          rcases List.mem_cons.mp hy with hy | hy
          · subst hy; exact le_refl _
          · exact le_trans (hmax₁ y hy) (not_lt.mp hc)

theorem extractTopK_spec (k : Nat) :
    ∀ l : List (Int × Nat), k ≤ l.length →
    ∃ P rest : List (Int × Nat),
      extractTopK k l = some (P.map Prod.snd) ∧ l.Perm (P ++ rest) ∧ P.length = k ∧
      ∀ m ∈ P, ∀ x ∈ rest, x.1 ≤ m.1 := by
  induction k with
  | zero =>
    intro l _
    exact ⟨[], l, rfl, by simp, rfl, by simp⟩
  | succ n ih =>
    intro l hlen
    have hne : l ≠ [] := by
      intro h; subst h; simp at hlen
    cases hp : popMax l with
    | none => exact absurd ((popMax_eq_none_iff l).mp hp) hne
    | some q =>
      obtain ⟨m, rest₁⟩ := q
      obtain ⟨hperm, hmax⟩ := popMax_spec l m rest₁ hp
      have hlen₁ : n ≤ rest₁.length := by
        have := hperm.length_eq
        simp at this
        omega
      obtain ⟨P, rest, hext, hperm₂, hPlen, hmax₂⟩ := ih rest₁ hlen₁
      refine ⟨m :: P, rest, ?_, ?_, by simp [hPlen], ?_⟩
      · simp [extractTopK, hp, hext]
      · exact hperm.trans (hperm₂.cons m)
      · intro m₂ hm₂ x hx
        rcases List.mem_cons.mp hm₂ with hm₂ | hm₂
        · subst hm₂
          have hxl : x ∈ l := hperm.mem_iff.mpr (List.mem_cons.mpr (Or.inr (hperm₂.mem_iff.mpr (List.mem_append.mpr (Or.inr hx)))))
          exact hmax x hxl
        · exact hmax₂ m₂ hm₂ x hx

/-! ### Closed forms for the damage evaluator -/

theorem filter_lt_succ_of_mem (S : Finset Nat) (m : Nat) (hm : m ∈ S) :
    S.filter (· < m + 1) = insert m (S.filter (· < m)) := by
  ext j
  simp only [Finset.mem_filter, Finset.mem_insert]
  constructor
  · rintro ⟨hj, hlt⟩
    rcases Nat.lt_succ_iff_lt_or_eq.mp hlt with h | h
    · exact Or.inr ⟨hj, h⟩
    · exact Or.inl h
  · rintro (h | ⟨hj, hlt⟩)
    · subst h; exact ⟨hm, Nat.lt_succ_self _⟩
    · exact ⟨hj, Nat.lt_succ_of_lt hlt⟩

theorem filter_lt_succ_of_not_mem (S : Finset Nat) (m : Nat) (hm : m ∉ S) :
    S.filter (· < m + 1) = S.filter (· < m) := by
  apply Finset.filter_congr
  intro j hj
  have hjm : j ≠ m := by rintro rfl; exact hm hj
  constructor <;> omega

theorem dmg_fold_eq (p : TrapsPuzzle) (S : Finset Nat) (m : Nat) :
    (List.range m).foldl
      (fun acc i =>
        if i ∈ S then (acc.1, acc.2 + 1)
        else (acc.1 + (p.base_dmgs.getD i 0 + acc.2), acc.2))
      ((0, 0) : Nat × Nat) =
    (∑ i ∈ (Finset.range m).filter (· ∉ S),
        (p.base_dmgs.getD i 0 + (S.filter (· < i)).card),
      (S.filter (· < m)).card) := by
  induction m with
  | zero =>
    simp only [List.range_zero, List.foldl_nil, Finset.range_zero, Finset.filter_empty,
      Finset.sum_empty]
    rw [Finset.filter_false_of_mem (fun j _ => by omega), Finset.card_empty]
  | succ m ih =>
    rw [List.range_succ, List.foldl_append, ih]
    simp only [List.foldl_cons, List.foldl_nil]
    by_cases hm : m ∈ S
    · rw [if_pos hm]
      simp only [Prod.mk.injEq]
      constructor
      · rw [Finset.range_succ, Finset.filter_insert, if_neg (by simp [hm])]
      · rw [filter_lt_succ_of_mem S m hm,
          Finset.card_insert_of_not_mem (by simp)]
    · rw [if_neg hm]
      simp only [Prod.mk.injEq]
      constructor
      · rw [Finset.range_succ, Finset.filter_insert, if_pos (by simp [hm]),
          Finset.sum_insert (by simp)]
        omega
      · rw [filter_lt_succ_of_not_mem S m hm]

theorem dmg_eq_sum (p : TrapsPuzzle) (S : Finset Nat) :
    dmg_from_skip_inds p S =
      ∑ i ∈ (Finset.range p.base_dmgs.length).filter (· ∉ S),
        (p.base_dmgs.getD i 0 + (S.filter (· < i)).card) := by
  unfold dmg_from_skip_inds
  rw [dmg_fold_eq]

theorem sum_range_getD (l : List Nat) :
    ∑ i ∈ Finset.range l.length, l.getD i 0 = l.sum := by
  induction l with
  | nil => simp
  | cons a t ih =>
    rw [List.length_cons, Finset.sum_range_succ']
    have h1 : ∀ i, (a :: t).getD (i + 1) 0 = t.getD i 0 := fun i => rfl
    have h2 : (a :: t).getD 0 0 = a := rfl
    simp only [h1, h2, List.sum_cons, ih]
    omega

theorem dmg_empty (p : TrapsPuzzle) :
    dmg_from_skip_inds p ∅ = p.base_dmgs.sum := by
  rw [dmg_eq_sum]
  rw [Finset.filter_true_of_mem (fun i _ => Finset.not_mem_empty i)]
  simp only [Finset.filter_empty, Finset.card_empty, Nat.add_zero]
  exact sum_range_getD p.base_dmgs

theorem dmg_full_range (p : TrapsPuzzle) :
    dmg_from_skip_inds p (Finset.range p.base_dmgs.length) = 0 := by
  rw [dmg_eq_sum]
  rw [Finset.filter_eq_empty_iff.mpr (by intro i hi; simp [hi])]
  simp

theorem sum_filter_lt_card (S : Finset Nat) :
    ∑ j ∈ S, (S.filter (fun i => j < i)).card = S.card.choose 2 := by
  induction S using Finset.induction_on with
  | empty => simp
  | insert ha ih =>
    rename_i a S'
    rw [Finset.sum_insert ha]
    have h1 : (insert a S').filter (fun i => a < i) = S'.filter (fun i => a < i) := by
      rw [Finset.filter_insert, if_neg (by omega)]
    have h2 : ∀ j ∈ S', ((insert a S').filter (fun i => j < i)).card =
        (S'.filter (fun i => j < i)).card + if j < a then 1 else 0 := by
      intro j hj
      rw [Finset.filter_insert]
      by_cases hja : j < a
      · rw [if_pos hja, Finset.card_insert_of_not_mem (by simp [ha]), if_pos hja]
      · rw [if_neg hja, if_neg hja, Nat.add_zero]
    rw [h1, Finset.sum_congr rfl h2, Finset.sum_add_distrib]
    have h3 : (∑ j ∈ S', if j < a then 1 else 0) = (S'.filter (· < a)).card := by
      rw [Finset.card_filter]
    have h4 : (S'.filter (fun i => a < i)).card + (S'.filter (· < a)).card = S'.card := by
      have hpart := Finset.filter_card_add_filter_neg_card_eq_card
        (s := S') (p := fun i => a < i)
      have hneg : S'.filter (fun i => ¬ a < i) = S'.filter (· < a) := by
        apply Finset.filter_congr
        intro j hj
        have hja : j ≠ a := by rintro rfl; exact ha hj
        constructor <;> omega
      rw [hneg] at hpart
      exact hpart
    rw [ih, h3, Finset.card_insert_of_not_mem ha]
    have h5 : (S'.card + 1).choose 2 = S'.card.choose 2 + S'.card := by
      have h : (S'.card + 1).choose 2 = S'.card.choose 1 + S'.card.choose 2 := rfl
      rw [h, Nat.choose_one_right, Nat.add_comm]
    omega

theorem swap_count (A S : Finset Nat) :
    ∑ i ∈ A, (S.filter (· < i)).card = ∑ j ∈ S, (A.filter (fun i => j < i)).card := by
  have hl : ∀ i ∈ A, (S.filter (· < i)).card = ∑ j ∈ S, if j < i then 1 else 0 := by
    intro i _
    rw [Finset.card_filter]
  have hr : ∀ j ∈ S, (A.filter (fun i => j < i)).card = ∑ i ∈ A, if j < i then 1 else 0 := by
    intro j _
    rw [Finset.card_filter]
  rw [Finset.sum_congr rfl hl, Finset.sum_congr rfl hr, Finset.sum_comm]

theorem count_after_in_complement (S : Finset Nat) (n : Nat) (hS : S ⊆ Finset.range n)
    (j : Nat) :
    ((Finset.range n \ S).filter (fun i => j < i)).card
      + (S.filter (fun i => j < i)).card = n - j - 1 := by
  have hdisj : Disjoint ((Finset.range n \ S).filter (fun i => j < i))
      (S.filter (fun i => j < i)) :=
    Finset.disjoint_filter_filter Finset.sdiff_disjoint
  rw [← Finset.card_union_of_disjoint hdisj, ← Finset.filter_union,
    Finset.sdiff_union_of_subset hS]
  have hIco : (Finset.range n).filter (fun i => j < i) = Finset.Ico (j + 1) n := by
    ext i
    simp only [Finset.mem_filter, Finset.mem_range, Finset.mem_Ico]
    omega
  rw [hIco, Nat.card_Ico]
  omega

theorem dmg_closed_form (p : TrapsPuzzle) (S : Finset Nat)
    (hS : S ⊆ Finset.range p.base_dmgs.length) :
    (dmg_from_skip_inds p S : Int) =
      (∑ i ∈ Finset.range p.base_dmgs.length, (p.base_dmgs.getD i 0 : Int))
        - (∑ j ∈ S, specScore p j) - (S.card.choose 2 : Nat) := by
  have hA : (Finset.range p.base_dmgs.length).filter (· ∉ S)
      = Finset.range p.base_dmgs.length \ S :=
    (Finset.sdiff_eq_filter _ _).symm
  rw [dmg_eq_sum, hA]
  push_cast
  rw [Finset.sum_add_distrib]
  have h1 : (∑ i ∈ Finset.range p.base_dmgs.length \ S, (p.base_dmgs.getD i 0 : Int))
      = (∑ i ∈ Finset.range p.base_dmgs.length, (p.base_dmgs.getD i 0 : Int))
        - ∑ j ∈ S, (p.base_dmgs.getD j 0 : Int) :=
    Finset.sum_sdiff_eq_sub hS
  have h2 : (∑ i ∈ Finset.range p.base_dmgs.length \ S,
        ((S.filter (· < i)).card : Int))
      = (∑ j ∈ S, ((p.base_dmgs.length - j - 1 : Nat) : Int))
        - (S.card.choose 2 : Nat) := by
    have hswap := swap_count (Finset.range p.base_dmgs.length \ S) S
    have hcast : (∑ i ∈ Finset.range p.base_dmgs.length \ S,
        ((S.filter (· < i)).card : Int))
        = ((∑ i ∈ Finset.range p.base_dmgs.length \ S,
            (S.filter (· < i)).card : Nat) : Int) := by
      push_cast
      rfl
    rw [hcast, hswap]
    have hterm : ∀ j ∈ S,
        (((Finset.range p.base_dmgs.length \ S).filter (fun i => j < i)).card : Int)
          = ((p.base_dmgs.length - j - 1 : Nat) : Int)
            - ((S.filter (fun i => j < i)).card : Int) := by
      intro j hj
      have := count_after_in_complement S p.base_dmgs.length hS j
      omega
    push_cast
    rw [Finset.sum_congr rfl hterm, Finset.sum_sub_distrib]
    have hchoose : (∑ j ∈ S, ((S.filter (fun i => j < i)).card : Int))
        = ((S.card.choose 2 : Nat) : Int) := by
      rw [← Nat.cast_sum]
      exact_mod_cast congrArg (Nat.cast (R := Int)) (sum_filter_lt_card S)
    rw [hchoose]
  rw [h1, h2]
  unfold specScore
  rw [Finset.sum_sub_distrib]
  ring

/-! ### The exchange argument: a top-k set maximises the score sum -/

theorem sum_le_sum_of_isTopK (f : Nat → Int) (n k : Nat) (S T : Finset Nat)
    (hS : IsTopK f n k S) (hT : T ⊆ Finset.range n) (hTcard : T.card = k) :
    ∑ j ∈ T, f j ≤ ∑ j ∈ S, f j := by
  obtain ⟨hSsub, hScard, hStop⟩ := hS
  have hcards : (S \ T).card = (T \ S).card := by
    have h1 := Finset.card_sdiff_add_card_inter S T
    have h2 := Finset.card_sdiff_add_card_inter T S
    rw [Finset.inter_comm] at h2
    omega
  have hsplit1 : ∑ j ∈ S ∩ T, f j + ∑ j ∈ S \ T, f j = ∑ j ∈ S, f j :=
    Finset.sum_inter_add_sum_diff S T f
  have hsplit2 : ∑ j ∈ T ∩ S, f j + ∑ j ∈ T \ S, f j = ∑ j ∈ T, f j :=
    Finset.sum_inter_add_sum_diff T S f
  rw [Finset.inter_comm] at hsplit2
  have hkey : ∑ j ∈ T \ S, f j ≤ ∑ j ∈ S \ T, f j := by
    rcases Finset.eq_empty_or_nonempty (S \ T) with he | hne
    · have : (T \ S).card = 0 := by rw [← hcards, he, Finset.card_empty]
      rw [Finset.card_eq_zero.mp this, he]
    · obtain ⟨a, haA, hamin⟩ := Finset.exists_min_image (S \ T) f hne
      have hbound : ∀ b ∈ T \ S, f b ≤ f a := by
        intro b hb
        have hbT : b ∈ T := (Finset.mem_sdiff.mp hb).1
        have hbS : b ∉ S := (Finset.mem_sdiff.mp hb).2
        exact hStop a (Finset.mem_sdiff.mp haA).1 b
          (Finset.mem_sdiff.mpr ⟨hT hbT, hbS⟩)
      calc ∑ j ∈ T \ S, f j ≤ (T \ S).card • f a :=
            Finset.sum_le_card_nsmul _ _ _ hbound
        _ = (S \ T).card • f a := by rw [hcards]
        _ ≤ ∑ j ∈ S \ T, f j := Finset.card_nsmul_le_sum _ _ _ hamin
  omega

/-! ### Faithfulness of the wrapped `i32` score on in-range inputs -/

theorem wrap32_eq_self (z : Int) (h1 : -(2 ^ 31) ≤ z) (h2 : z < 2 ^ 31) :
    wrap32 z = z := by
  unfold wrap32
  rw [Int.emod_eq_of_lt (by omega) (by omega)]
  omega

theorem score_eq_specScore_of_bounds (p : TrapsPuzzle) (i : Nat)
    (hi : i < p.base_dmgs.length)
    (hd : p.base_dmgs.getD i 0 < 2 ^ 31)
    (hn : p.base_dmgs.length ≤ 2 ^ 31) :
    score p i = specScore p i := by
  unfold score i32_sub usize_as_i32 specScore
  have hsub : p.base_dmgs.length - i - 1 < 2 ^ 31 := by omega
  rw [wrap32_eq_self (p.base_dmgs.getD i 0) (by omega) (by exact_mod_cast hd),
    wrap32_eq_self (p.base_dmgs.length - i - 1 : Nat) (by omega)
      (by exact_mod_cast hsub),
    wrap32_eq_self _ (by omega) (by omega)]

theorem score_eq_specScore_of_small (p : TrapsPuzzle)
    (hd : ∀ x ∈ p.base_dmgs, x < 2 ^ 31)
    (hn : p.base_dmgs.length ≤ 2 ^ 31) (i : Nat) (hi : i < p.base_dmgs.length) :
    score p i = specScore p i := by
  apply score_eq_specScore_of_bounds p i hi _ hn
  rw [List.getD_eq_getElem p.base_dmgs 0 hi]
  exact hd _ (List.getElem_mem hi)

/-! ### What the greedy extraction produces on the scored pairs -/

theorem extract_scoredPairs_spec (p : TrapsPuzzle)
    (hk : p.k ≤ p.base_dmgs.length) :
    ∃ L : List Nat, extractTopK p.k (scoredPairs p) = some L ∧ L.Nodup ∧
      L.length = p.k ∧ (∀ i ∈ L, i < p.base_dmgs.length) ∧
      IsTopK (score p) p.base_dmgs.length p.k L.toFinset ∧
      naive_solve p = some (dmg_from_skip_inds p L.toFinset) := by
  have hlen : p.k ≤ (scoredPairs p).length := by
    rw [scoredPairs, List.length_map, List.length_range]
    exact hk
  obtain ⟨P, rest, hext, hperm, hPlen, hmax⟩ := extractTopK_spec p.k (scoredPairs p) hlen
  have hsnd : (scoredPairs p).map Prod.snd = List.range p.base_dmgs.length := by
    rw [scoredPairs, List.map_map]
    exact List.map_id _
  have hpermsnd : ((P ++ rest).map Prod.snd).Perm (List.range p.base_dmgs.length) := by
    rw [← hsnd]
    exact (hperm.map Prod.snd).symm
  have hnodup : ((P ++ rest).map Prod.snd).Nodup :=
    hpermsnd.nodup_iff.mpr (List.nodup_range _)
  rw [List.map_append] at hnodup hpermsnd
  have hmem_pairs : ∀ x ∈ scoredPairs p, x = (score p x.2, x.2) ∧ x.2 < p.base_dmgs.length := by
    intro x hx
    rw [scoredPairs, List.mem_map] at hx
    obtain ⟨i, hi, hxi⟩ := hx
    subst hxi
    exact ⟨rfl, List.mem_range.mp hi⟩
  refine ⟨P.map Prod.snd, hext, (List.nodup_append.mp hnodup).1, by simp [hPlen], ?_, ?_, ?_⟩
  · intro i hi
    rw [List.mem_map] at hi
    obtain ⟨m, hm, hmi⟩ := hi
    subst hmi
    have hmem : m ∈ scoredPairs p := hperm.mem_iff.mpr (List.mem_append.mpr (Or.inl hm))
    exact (hmem_pairs m hmem).2
  · refine ⟨?_, ?_, ?_⟩
    · intro i hi
      rw [List.mem_toFinset, List.mem_map] at hi
      obtain ⟨m, hm, hmi⟩ := hi
      subst hmi
      have hmem : m ∈ scoredPairs p := hperm.mem_iff.mpr (List.mem_append.mpr (Or.inl hm))
      exact Finset.mem_range.mpr (hmem_pairs m hmem).2
    · rw [List.toFinset_card_of_nodup (List.nodup_append.mp hnodup).1,
        List.length_map, hPlen]
    · intro i hiT j hj
      rw [Finset.mem_sdiff, Finset.mem_range] at hj
      obtain ⟨hjn, hjT⟩ := hj
      have hjL : j ∉ P.map Prod.snd := fun h => hjT (List.mem_toFinset.mpr h)
      have hjpair : ((score p j, j) : Int × Nat) ∈ scoredPairs p := by
        rw [scoredPairs, List.mem_map]
        exact ⟨j, List.mem_range.mpr hjn, rfl⟩
      have hjsplit : ((score p j, j) : Int × Nat) ∈ P ++ rest := hperm.mem_iff.mp hjpair
      have hjrest : ((score p j, j) : Int × Nat) ∈ rest := by
        rcases List.mem_append.mp hjsplit with h | h
        · exact absurd (List.mem_map.mpr ⟨(score p j, j), h, rfl⟩) hjL
        · exact h
      rw [List.mem_toFinset, List.mem_map] at hiT
      obtain ⟨m, hm, hmi⟩ := hiT
      have hmmem : m ∈ scoredPairs p := hperm.mem_iff.mpr (List.mem_append.mpr (Or.inl hm))
      have hmform := (hmem_pairs m hmmem).1
      have := hmax m hm (score p j, j) hjrest
      rw [hmform] at this
      simp only at this
      rw [← hmi, ← (congrArg Prod.snd hmform)]
      simpa using this
  · rw [naive_solve, hext]
    rfl

theorem naive_solve_topk (p : TrapsPuzzle) (hk : p.k ≤ p.base_dmgs.length) :
    ∃ T : Finset Nat, IsTopK (score p) p.base_dmgs.length p.k T ∧
      naive_solve p = some (dmg_from_skip_inds p T) := by
  obtain ⟨L, _, _, _, _, htop, hval⟩ := extract_scoredPairs_spec p hk
  exact ⟨L.toFinset, htop, hval⟩

instance instDecidableIsTopK (f : Nat → Int) (n k : Nat) (T : Finset Nat) :
    Decidable (IsTopK f n k T) := by
  unfold IsTopK
  infer_instance

/-- Under in-`i32`-range damages the greedy result is the brute-force minimum:
the greedy skip set is top-`k` by the exact score, and by the closed form the
evaluator total is a constant minus the sum of the chosen scores. -/
theorem naive_brute_agree (p : TrapsPuzzle) (hk : p.k ≤ p.base_dmgs.length)
    (hd : ∀ x ∈ p.base_dmgs, x < 2 ^ 31) (hn : p.base_dmgs.length ≤ 2 ^ 31) :
    ∃ v : Nat, naive_solve p = some v ∧ brute_force_solve p = (v : WithTop Nat) := by
  obtain ⟨T, htop, hval⟩ := naive_solve_topk p hk
  have htop' : IsTopK (specScore p) p.base_dmgs.length p.k T := by
    obtain ⟨hsub, hcard, hmax⟩ := htop
    refine ⟨hsub, hcard, ?_⟩
    intro i hi j hj
    rw [← score_eq_specScore_of_small p hd hn i (Finset.mem_range.mp (hsub hi)),
      ← score_eq_specScore_of_small p hd hn j
        (Finset.mem_range.mp (Finset.mem_sdiff.mp hj).1)]
    exact hmax i hi j hj
  have hmin : ∀ U : Finset Nat, U ⊆ Finset.range p.base_dmgs.length → U.card = p.k →
      dmg_from_skip_inds p T ≤ dmg_from_skip_inds p U := by
    intro U hU hUcard
    have h1 := dmg_closed_form p T htop'.1
    have h2 := dmg_closed_form p U hU
    have h3 := sum_le_sum_of_isTopK (specScore p) p.base_dmgs.length p.k T U htop' hU hUcard
    have hTcard : T.card = p.k := htop'.2.1
    have hle : (dmg_from_skip_inds p T : Int) ≤ (dmg_from_skip_inds p U : Int) := by
      rw [h1, h2, hTcard, hUcard]
      omega
    exact_mod_cast hle
  refine ⟨dmg_from_skip_inds p T, hval, ?_⟩
  apply le_antisymm
  · exact Finset.min_le (Finset.mem_image_of_mem _
      (Finset.mem_powersetCard.mpr ⟨htop'.1, htop'.2.1⟩))
  · apply Finset.le_min
    intro b hb
    rw [Finset.mem_image] at hb
    obtain ⟨U, hU, hbU⟩ := hb
    rw [Finset.mem_powersetCard] at hU
    subst hbU
    exact WithTop.coe_le_coe.mpr (hmin U hU.1 hU.2)

/-! ### The claims -/

/-- C1 (amended): for every puzzle with `1 ≤ n ≤ 9`, `1 ≤ k < n` and every
damage below `2^31` (so that the `usize → i32` casts do not wrap), the greedy
solver returns exactly the brute-force minimum.  Without the `2^31` bound the
claim is false — see `greedy_brute_disagree_on_i32_overflow`. -/
theorem greedy_matches_brute_force_small (p : TrapsPuzzle)
    (hn1 : 1 ≤ p.base_dmgs.length) (hn9 : p.base_dmgs.length ≤ 9)
    (hk1 : 1 ≤ p.k) (hkn : p.k < p.base_dmgs.length)
    (hd : ∀ x ∈ p.base_dmgs, x < 2 ^ 31) :
    ∃ v : Nat, naive_solve p = some v ∧ brute_force_solve p = (v : WithTop Nat) :=
  naive_brute_agree p (le_of_lt hkn) hd (by omega)

/-- C1 counterexample: the puzzle `damages = [0, 2^31]`, `k = 1` satisfies
`n = 2 ≤ 9` and `1 ≤ k < n` with non-negative damages, yet the greedy solver
returns `2^31 + 1` while the brute-force minimum is `0` (the `as i32` cast of
`2^31` wraps to `-2^31`, inverting the comparison). -/
theorem greedy_brute_disagree_on_i32_overflow :
    naive_solve ⟨[0, 2 ^ 31], 1⟩ = some 2147483649 ∧
    brute_force_solve ⟨[0, 2 ^ 31], 1⟩ = ((0 : Nat) : WithTop Nat) := by
  constructor
  · decide
  · decide

theorem greedy_matches_brute_force_small_witness :
    ∃ v : Nat, naive_solve ⟨[1, 2, 3], 1⟩ = some v ∧
      brute_force_solve ⟨[1, 2, 3], 1⟩ = (v : WithTop Nat) :=
  greedy_matches_brute_force_small ⟨[1, 2, 3], 1⟩ (by decide) (by decide) (by decide)
    (by decide) (by decide)

/-- C2 (amended): whenever every damage fits in `i32` (is below `2^31`, with
`n ≤ 2^31`), the greedy solver is exactly the spec's §4.2 procedure: score
every position by `damages[i] - (n - i - 1)`, push all `(score, i)` pairs into
the max-priority structure, pop the `k` largest, and evaluate that skip set.
Without the bound the code scores in wrapped `i32` arithmetic and diverges —
see `naive_solve_ne_spec_procedure`. -/
theorem naive_solve_eq_spec_greedy (p : TrapsPuzzle)
    (hd : ∀ x ∈ p.base_dmgs, x < 2 ^ 31) (hn : p.base_dmgs.length ≤ 2 ^ 31) :
    naive_solve p = spec_greedy p := by
  have hpairs : scoredPairs p = specScoredPairs p := by
    rw [scoredPairs, specScoredPairs]
    apply List.map_congr_left
    intro i hi
    rw [score_eq_specScore_of_small p hd hn i (List.mem_range.mp hi)]
  rw [naive_solve, spec_greedy, hpairs]

/-- C2 counterexample: on `damages = [1, 2^31]`, `k = 1` the code does not
assign position `1` the score `damages[1] - (n - 1 - 1) = 2^31`: the cast
wraps it to `-2^31`, the greedy skips position `0` instead and returns
`2^31 + 1`, while every skip set consisting of the position with the largest
spec score yields `1` (as does the spec procedure itself). -/
theorem naive_solve_ne_spec_procedure :
    naive_solve ⟨[1, 2 ^ 31], 1⟩ = some 2147483649 ∧
    spec_greedy ⟨[1, 2 ^ 31], 1⟩ = some 1 ∧
    (∀ T ∈ (Finset.range 2).powersetCard 1,
      IsTopK (specScore ⟨[1, 2 ^ 31], 1⟩) 2 1 T →
        dmg_from_skip_inds ⟨[1, 2 ^ 31], 1⟩ T = 1) := by
  refine ⟨by decide, by decide, by decide⟩

theorem naive_solve_eq_spec_greedy_witness :
    naive_solve ⟨[1, 2, 3], 1⟩ = spec_greedy ⟨[1, 2, 3], 1⟩ :=
  naive_solve_eq_spec_greedy ⟨[1, 2, 3], 1⟩ (by decide) (by decide)

/-- C3: the damage evaluator is the order-sensitive scan of positions
`0..n` — equivalently, each unskipped position `i` contributes its own damage
plus the number of skipped positions before it — and on `damages = [1,2,3]`
the empty skip set yields `6` while the skip set `{0}` yields `7`. -/
theorem evaluator_scan_formula :
    (∀ (p : TrapsPuzzle) (S : Finset Nat),
      dmg_from_skip_inds p S =
        ∑ i ∈ (Finset.range p.base_dmgs.length).filter (· ∉ S),
          (p.base_dmgs.getD i 0 + (S.filter (· < i)).card)) ∧
    dmg_from_skip_inds ⟨[1, 2, 3], 0⟩ ∅ = 6 ∧
    dmg_from_skip_inds ⟨[1, 2, 3], 0⟩ {0} = 7 :=
  ⟨dmg_eq_sum, by decide, by decide⟩

/-- C4: on the fixture puzzle `damages = [8,2,5,15,11,2,8]`, `k = 5`, the
greedy solver and the brute-force solver both return exactly `9`. -/
theorem fixture_puzzle_value :
    naive_solve ⟨[8, 2, 5, 15, 11, 2, 8], 5⟩ = some 9 ∧
    brute_force_solve ⟨[8, 2, 5, 15, 11, 2, 8], 5⟩ = ((9 : Nat) : WithTop Nat) := by
  constructor
  · decide
  · decide

/-- C5: with `k = 0` the greedy solver returns the plain sum of all damages —
the skip set is empty, so no bonus is ever applied. -/
theorem naive_solve_k_zero (p : TrapsPuzzle) (h : p.k = 0) :
    naive_solve p = some p.base_dmgs.sum := by
  rw [naive_solve, h]
  show some (dmg_from_skip_inds p ([] : List Nat).toFinset) = _
  rw [List.toFinset_nil, dmg_empty]

theorem naive_solve_k_zero_witness :
    naive_solve ⟨[1, 2, 3], 0⟩ = some 6 := by
  have h := naive_solve_k_zero ⟨[1, 2, 3], 0⟩ rfl
  simpa using h

/-- C6: with `k = n` the greedy solver returns `0`: the skip set is a size-`n`
subset of `[0, n)`, hence all of it, and skipping everything yields no damage. -/
theorem naive_solve_k_eq_n (p : TrapsPuzzle) (h : p.k = p.base_dmgs.length) :
    naive_solve p = some 0 := by
  obtain ⟨T, ⟨hsub, hcard, _⟩, hval⟩ := naive_solve_topk p (le_of_eq h)
  have hT : T = Finset.range p.base_dmgs.length := by
    apply Finset.eq_of_subset_of_card_le hsub
    rw [hcard, h, Finset.card_range]
  rw [hval, hT, dmg_full_range]

theorem naive_solve_k_eq_n_witness :
    naive_solve ⟨[5, 7], 2⟩ = some 0 :=
  naive_solve_k_eq_n ⟨[5, 7], 2⟩ rfl

/-- C7: for `0 ≤ k ≤ n` the skip list the greedy solver builds before
evaluating holds exactly `k` distinct indices, each in `[0, n)` — whatever the
score ties — and the solver's answer is the evaluator on that skip set. -/
theorem greedy_skip_set_exact (p : TrapsPuzzle) (hk : p.k ≤ p.base_dmgs.length) :
    ∃ L : List Nat, extractTopK p.k (scoredPairs p) = some L ∧ L.Nodup ∧
      L.length = p.k ∧ (∀ i ∈ L, i < p.base_dmgs.length) ∧
      L.toFinset.card = p.k ∧
      naive_solve p = some (dmg_from_skip_inds p L.toFinset) := by
  obtain ⟨L, hext, hnd, hlen, hmem, htop, hval⟩ := extract_scoredPairs_spec p hk
  exact ⟨L, hext, hnd, hlen, hmem, htop.2.1, hval⟩

theorem greedy_skip_set_exact_witness :
    ∃ L : List Nat, extractTopK 1 (scoredPairs ⟨[3, 1], 1⟩) = some L ∧ L.Nodup ∧
      L.length = 1 ∧ (∀ i ∈ L, i < 2) ∧ L.toFinset.card = 1 ∧
      naive_solve ⟨[3, 1], 1⟩ = some (dmg_from_skip_inds ⟨[3, 1], 1⟩ L.toFinset) :=
  greedy_skip_set_exact ⟨[3, 1], 1⟩ (by decide)

/-- C8: for `0 ≤ k ≤ n` the greedy solver never fails: all `k` pops find a
non-empty heap, so the modelled `pop().unwrap()` never hits `none` and the
solver returns a value. -/
theorem naive_solve_no_panic (p : TrapsPuzzle) (hk : p.k ≤ p.base_dmgs.length) :
    (naive_solve p).isSome = true := by
  obtain ⟨T, _, hval⟩ := naive_solve_topk p hk
  rw [hval]
  rfl

theorem naive_solve_no_panic_witness :
    (naive_solve ⟨[2, 9, 4], 2⟩).isSome = true :=
  naive_solve_no_panic ⟨[2, 9, 4], 2⟩ (by decide)

/-- Two skip sets that are both top-`k` for the exact spec score have equal
score sums, hence — by the closed form — equal evaluator totals. -/
theorem dmg_eq_of_isTopK_specScore (p : TrapsPuzzle) (k : Nat) (S₁ S₂ : Finset Nat)
    (h₁ : IsTopK (specScore p) p.base_dmgs.length k S₁)
    (h₂ : IsTopK (specScore p) p.base_dmgs.length k S₂) :
    dmg_from_skip_inds p S₁ = dmg_from_skip_inds p S₂ := by
  have hsum : ∑ j ∈ S₁, specScore p j = ∑ j ∈ S₂, specScore p j :=
    le_antisymm
      (sum_le_sum_of_isTopK (specScore p) p.base_dmgs.length k S₂ S₁ h₂ h₁.1 h₁.2.1)
      (sum_le_sum_of_isTopK (specScore p) p.base_dmgs.length k S₁ S₂ h₁ h₂.1 h₂.2.1)
  have hc1 := dmg_closed_form p S₁ h₁.1
  have hc2 := dmg_closed_form p S₂ h₂.1
  have hint : (dmg_from_skip_inds p S₁ : Int) = dmg_from_skip_inds p S₂ := by
    rw [hc1, hc2, hsum, h₁.2.1, h₂.2.1]
  exact_mod_cast hint

/-- When no cast wraps, a top-`k` set for the code's wrapped `i32` score is a
top-`k` set for the exact spec score. -/
theorem isTopK_spec_of_isTopK_score (p : TrapsPuzzle) (k : Nat)
    (hd : ∀ x ∈ p.base_dmgs, x < 2 ^ 31) (hn : p.base_dmgs.length ≤ 2 ^ 31)
    (T : Finset Nat) (h : IsTopK (score p) p.base_dmgs.length k T) :
    IsTopK (specScore p) p.base_dmgs.length k T := by
  obtain ⟨hsub, hcard, hmax⟩ := h
  refine ⟨hsub, hcard, ?_⟩
  intro i hi j hj
  rw [← score_eq_specScore_of_small p hd hn i (Finset.mem_range.mp (hsub hi)),
    ← score_eq_specScore_of_small p hd hn j
      (Finset.mem_range.mp (Finset.mem_sdiff.mp hj).1)]
  exact hmax i hi j hj

/-- C9 (amended): the greedy result is deterministic — equal puzzles give
equal totals — and, provided every damage is below `2^31` and `n ≤ 2^31` (so
the solver's `i32` scores cannot wrap), any two size-`k` skip sets that each
carry the `k` largest solver scores (differing only in which equal-score
candidates were taken) give the same evaluator total, so no heap tie-break can
change the returned damage.  Without the bound this fails — see
`tied_wrapped_scores_different_totals`. -/
theorem naive_result_deterministic_bounded :
    (∀ p q : TrapsPuzzle, p = q → naive_solve p = naive_solve q) ∧
    (∀ (p : TrapsPuzzle) (S₁ S₂ : Finset Nat),
      (∀ x ∈ p.base_dmgs, x < 2 ^ 31) → p.base_dmgs.length ≤ 2 ^ 31 →
      IsTopK (score p) p.base_dmgs.length p.k S₁ →
      IsTopK (score p) p.base_dmgs.length p.k S₂ →
      dmg_from_skip_inds p S₁ = dmg_from_skip_inds p S₂) :=
  ⟨fun p q h => by rw [h],
    fun p S₁ S₂ hd hn h₁ h₂ =>
      dmg_eq_of_isTopK_specScore p p.k S₁ S₂
        (isTopK_spec_of_isTopK_score p p.k hd hn S₁ h₁)
        (isTopK_spec_of_isTopK_score p p.k hd hn S₂ h₂)⟩

/-- C9 counterexample: on `damages = [1, 2^32]`, `k = 1` the `as i32` casts
wrap both scores to `0`, so `{0}` and `{1}` are each a size-1 skip set of
positions with the largest solver score, yet their evaluator totals differ
(`2^32 + 1` versus `1`) — a different heap tie order would change the
program's result. -/
theorem tied_wrapped_scores_different_totals :
    IsTopK (score ⟨[1, 2 ^ 32], 1⟩) 2 1 {0} ∧
    IsTopK (score ⟨[1, 2 ^ 32], 1⟩) 2 1 {1} ∧
    dmg_from_skip_inds ⟨[1, 2 ^ 32], 1⟩ {0} = 4294967297 ∧
    dmg_from_skip_inds ⟨[1, 2 ^ 32], 1⟩ {1} = 1 :=
  ⟨by decide, by decide, by decide, by decide⟩

theorem naive_result_deterministic_bounded_witness :
    naive_solve ⟨[3, 2], 1⟩ = naive_solve ⟨[3, 2], 1⟩ ∧
    dmg_from_skip_inds ⟨[3, 2], 1⟩ {0} = dmg_from_skip_inds ⟨[3, 2], 1⟩ {1} :=
  ⟨naive_result_deterministic_bounded.1 ⟨[3, 2], 1⟩ ⟨[3, 2], 1⟩ rfl,
    naive_result_deterministic_bounded.2 ⟨[3, 2], 1⟩ {0} {1} (by decide) (by decide)
      (by decide) (by decide)⟩

/-- C10: the greedy score is computed in wrapped 32-bit arithmetic: it equals
the exact score whenever `damages[i]` fits in `i32` (and `n ≤ 2^31`), it
diverges on `damages = [2^31]` where the cast wraps `2^31` to `-2^31`, and the
positions the solver selects are always a top-`k` set for the wrapped score. -/
theorem score_i32_wrap_semantics :
    (∀ (p : TrapsPuzzle) (i : Nat), i < p.base_dmgs.length →
      p.base_dmgs.getD i 0 < 2 ^ 31 → p.base_dmgs.length ≤ 2 ^ 31 →
      score p i = specScore p i) ∧
    score ⟨[2 ^ 31], 1⟩ 0 = -(2 ^ 31) ∧ specScore ⟨[2 ^ 31], 1⟩ 0 = 2 ^ 31 ∧
    (∀ p : TrapsPuzzle, p.k ≤ p.base_dmgs.length →
      ∃ T : Finset Nat, IsTopK (score p) p.base_dmgs.length p.k T ∧
        naive_solve p = some (dmg_from_skip_inds p T)) :=
  ⟨score_eq_specScore_of_bounds, by decide, by decide, naive_solve_topk⟩

theorem score_i32_wrap_semantics_witness :
    score ⟨[4, 1], 1⟩ 0 = specScore ⟨[4, 1], 1⟩ 0 ∧
    ∃ T : Finset Nat, IsTopK (score ⟨[4, 1], 1⟩) 2 1 T ∧
      naive_solve ⟨[4, 1], 1⟩ = some (dmg_from_skip_inds ⟨[4, 1], 1⟩ T) :=
  ⟨score_i32_wrap_semantics.1 ⟨[4, 1], 1⟩ 0 (by decide) (by decide) (by decide),
    score_i32_wrap_semantics.2.2.2 ⟨[4, 1], 1⟩ (by decide)⟩

end CodeforceTraps
